import Mathlib

/-
Verification of the UltiSnips core (src/python/UltiSnips/__init__.py) against
its natural-language specification.  The Python code is shallowly embedded:
Python strings become lists of characters, the regular-expression fragment
used by the snippet matcher becomes a small regex AST with a backtracking
matcher, and the stateful manager methods become explicit state-passing
functions.  Every definition is translated from the source file; definitions
whose doc comment says so follow the specification text instead (for code
that lives outside the provided source file).
-/

namespace UltiSnips

/-- Python strings are modelled as lists of characters. -/
abbrev PyStr := List Char

/-- Characters treated as whitespace by Python 2 `str.split` / `str.strip`
and by the `\s` class of the `re` module: space, tab, newline, carriage
return, vertical tab and form feed. -/
def pyIsSpace (c : Char) : Bool :=
  c = ' ' || c = '\t' || c = '\n' || c = '\r' || c = '\x0b' || c = '\x0c'

/-- Characters stripped by Python `str.strip(" \t")`: space and tab only. -/
def pyIsSpaceTab (c : Char) : Bool :=
  c = ' ' || c = '\t'

/-- Python `s.rstrip()`: remove trailing whitespace. -/
def pyRstrip (s : PyStr) : PyStr :=
  (s.reverse.dropWhile pyIsSpace).reverse

/-- Python `s.lstrip()`: remove leading whitespace. -/
def pyLstrip (s : PyStr) : PyStr :=
  s.dropWhile pyIsSpace

/-- Python `s.strip()`: remove whitespace on both ends. -/
def pyStrip (s : PyStr) : PyStr :=
  pyRstrip (pyLstrip s)

/-- Python `s.strip(" \t")`: remove spaces and tabs on both ends. -/
def pyStripSpaceTab (s : PyStr) : PyStr :=
  ((s.dropWhile pyIsSpaceTab).reverse.dropWhile pyIsSpaceTab).reverse

/-- Helper of `pySplit`: accumulates the current token in reverse. -/
def pySplitAux : List Char → List Char → List PyStr
  | [], acc => if acc.isEmpty then [] else [acc.reverse]
  | c :: rest, acc =>
    if pyIsSpace c then
      if acc.isEmpty then pySplitAux rest [] else acc.reverse :: pySplitAux rest []
    else pySplitAux rest (c :: acc)

/-- Python `s.split()`: split on runs of whitespace, no empty tokens. -/
def pySplit (s : PyStr) : List PyStr :=
  pySplitAux s []

/-- Python slice `s[:i]` for an `int` index `i` (negative indices count from
the end and clamp at 0; note that `s[:-0]` is `s[:0] = ""`). -/
def pySliceTo (s : PyStr) (i : Int) : PyStr :=
  if i < 0 then s.take (s.length - (-i).toNat) else s.take i.toNat

/-- Python slice `s[i:]` for an `int` index `i`. -/
def pySliceFrom (s : PyStr) (i : Int) : PyStr :=
  if i < 0 then s.drop (s.length - (-i).toNat) else s.drop i.toNat

/-- Python slice `s[a:b]` for non-negative indices. -/
def pySlice (s : PyStr) (a b : Nat) : PyStr :=
  (s.drop a).take (b - a)

/-- Python `s.rfind(sub)`: highest index at which `sub` occurs in `s`,
`-1` when it does not occur (the empty string occurs at every index,
so its rfind is `s.length`). -/
def pyRfind (s sub : PyStr) : Int :=
  match (List.range (s.length + 1)).reverse.find? (fun i => sub.isPrefixOf (s.drop i)) with
  | some i => (i : Int)
  | none => -1

/-- Python `t.startswith(p)`. -/
def pyStartsWith (t p : PyStr) : Bool :=
  p.isPrefixOf t

/-- Python `t.endswith(p)`. -/
def pyEndsWith (t p : PyStr) : Bool :=
  p.isSuffixOf t

/-- Word characters of the default (ASCII) `\w` class of Python 2 `re`. -/
def isWordChar (c : Char) : Bool :=
  c.isAlphanum || c = '_'

/-- Abstract syntax of the regular-expression fragment modelled here.  A
trigger string carrying the `r` option is compiled by Python `re`; the
embedding keeps the compiled form as a value of this type. -/
inductive Regex where
  | emp : Regex
  | eps : Regex
  | ch : Char → Regex
  | any : Regex
  | alt : Regex → Regex → Regex
  | cat : Regex → Regex → Regex
  | star : Regex → Regex
deriving DecidableEq

/-- Size of a regex, used to bound the backtracking fuel. -/
def Regex.rsize : Regex → Nat
  | .emp => 1
  | .eps => 1
  | .ch _ => 1
  | .any => 1
  | .alt a b => 1 + a.rsize + b.rsize
  | .cat a b => 1 + a.rsize + b.rsize
  | .star a => 1 + a.rsize

/-- Nullability for the derivative-based reference semantics. -/
def Regex.nullable : Regex → Bool
  | .emp => false
  | .eps => true
  | .ch _ => false
  | .any => false
  | .alt a b => a.nullable || b.nullable
  | .cat a b => a.nullable && b.nullable
  | .star _ => true

/-- Brzozowski derivative; `.any` models `.` (anything but a newline). -/
def Regex.deriv : Regex → Char → Regex
  | .emp, _ => .emp
  | .eps, _ => .emp
  | .ch c, x => if x = c then .eps else .emp
  | .any, x => if x = '\n' then .emp else .eps
  | .alt a b, x => .alt (a.deriv x) (b.deriv x)
  | .cat a b, x =>
    if a.nullable then .alt (.cat (a.deriv x) b) (b.deriv x) else .cat (a.deriv x) b
  | .star a, x => .cat (a.deriv x) (.star a)

/-- Reference semantics: does the regex match the whole string?  (Used to
state what "the trigger, interpreted as a regular expression, has a match"
means, independently of the backtracking model below.) -/
def Regex.rmatch (r : Regex) (s : PyStr) : Bool :=
  (s.foldl Regex.deriv r).nullable

/-- Lengths a backtracking engine can consume from the front of `s` when
matching `r`, in backtracking-priority order (alternation tries its left
branch first, `*` is greedy).  `fuel` bounds the recursion; every call
strictly decreases the pair (string length, regex size), so a fuel of
`(length + 2) * (size + 1)` is never exhausted. -/
def reEnds : Nat → Regex → PyStr → List Nat
  | 0, _, _ => []
  | _ + 1, .emp, _ => []
  | _ + 1, .eps, _ => [0]
  | _ + 1, .ch c, s =>
    match s with
    | [] => []
    | x :: _ => if x = c then [1] else []
  | _ + 1, .any, s =>
    match s with
    | [] => []
    | x :: _ => if x = '\n' then [] else [1]
  | f + 1, .alt a b, s => reEnds f a s ++ reEnds f b s
  | f + 1, .cat a b, s =>
    (reEnds f a s).flatMap (fun n => (reEnds f b (s.drop n)).map (n + ·))
  | f + 1, .star a, s =>
    ((reEnds f a s).filter (0 < ·)).flatMap
      (fun n => (reEnds f (.star a) (s.drop n)).map (n + ·)) ++ [0]

/-- Fuel that the mutual recursion of `reEnds` can never exhaust. -/
def regexFuel (r : Regex) (s : PyStr) : Nat :=
  (s.length + 2) * (r.rsize + 1)

/-- Consumable lengths of `r` at the front of `s`, priority-ordered. -/
def Regex.ends (r : Regex) (s : PyStr) : List Nat :=
  reEnds (regexFuel r s) r s

/-- Model of Python `re.finditer(r, s)`: scan positions left to right; at
each position yield the engine's first match if any, then continue after it
(one past it for an empty match).  Yields `(start, end)` pairs. -/
def reFindIterAux (r : Regex) (s : PyStr) : Nat → Nat → List (Nat × Nat)
  | 0, _ => []
  | f + 1, pos =>
    if pos ≤ s.length then
      match (Regex.ends r (s.drop pos)).head? with
      | some n => (pos, pos + n) :: reFindIterAux r s f (pos + max n 1)
      | none => reFindIterAux r s f (pos + 1)
    else []

/-- All matches `re.finditer(r, s)` yields, as `(start, end)` pairs. -/
def reFindIter (r : Regex) (s : PyStr) : List (Nat × Nat) :=
  reFindIterAux r s (s.length + 1) 0

/-- Model of `re.match(r'.\b.', bc)` being truthy: the first two characters
exist, neither is a newline (`.` does not match newlines), and there is a
word boundary between them (exactly one of the two is a word character). -/
def reBoundaryMatch (bc : PyStr) : Bool :=
  match bc with
  | a :: b :: _ => a ≠ '\n' && b ≠ '\n' && isWordChar a ≠ isWordChar b
  | _ => false

/-- Largest internal word-boundary position of `w` (between indices `i-1`
and `i` for `1 ≤ i ≤ length - 1`), if any. -/
def lastBoundaryIdx (w : PyStr) : Option Nat :=
  (List.range w.length).reverse.find?
    (fun i => decide (0 < i) && (isWordChar (w.getD (i - 1) ' ') != isWordChar (w.getD i ' ')))

/-- Model of `re.sub(r'^.+\b(.+)$', r'\1', w)`: if `w` contains no newline
(`.` cannot match one) and has an internal word boundary, drop everything up
to the last such boundary (the leading `.+` is greedy); otherwise return `w`
unchanged. -/
def pySubBoundaryTrim (w : PyStr) : PyStr :=
  if w.contains '\n' then w
  else
    match lastBoundaryIdx w with
    | some i => w.drop i
    | none => w

/-- A snippet definition (class `Snippet`, lines 134-317 of the source):
`t` is the trigger text `_t`, `re` its compiled form used when the `r`
option is set, `opts` the option string `_opts`.  `id` stands for Python
object identity (two definitions loaded separately are distinct objects). -/
structure Snippet where
  id : Nat
  t : PyStr
  re : Regex
  opts : List Char
deriving DecidableEq

/-- Model of `Snippet.has_option` (lines 186-188). -/
def Snippet.has_option (sn : Snippet) (c : Char) : Bool :=
  sn.opts.contains c

/-- Model of the property `Snippet.overwrites_previous` (lines 276-278). -/
def Snippet.overwrites_previous (sn : Snippet) : Bool :=
  sn.opts.contains '!'

/-- Model of the property `Snippet.trigger` (lines 284-286). -/
def Snippet.trigger (sn : Snippet) : PyStr :=
  sn.t

/-- Loop of `_words_for_line` (lines 166-169): for each word, cut
`before_words` at the last occurrence of that word (Python slicing with the
possibly negative result of `rfind`). -/
def wflLoop : List PyStr → PyStr → PyStr
  | [], bw => bw
  | w :: ws, bw => wflLoop ws (pySliceTo bw (pyRfind bw w))

/-- Model of `Snippet._words_for_line` (lines 150-170): the final
`num_words` words of `before`; `num_words` defaults to the number of
whitespace-separated words of the trigger `t`. -/
def Snippet.words_for_line (t before : PyStr) (numWords : Option Nat) : PyStr :=
  if before.length = 0 then []
  else
    let n := numWords.getD (pySplit t).length
    let wl := pySplit before
    if wl.length ≤ n then pyStrip before
    else
      let bw := wflLoop (wl.reverse.take n) before
      pyStrip (before.drop bw.length)

/-- Model of `Snippet._re_match` (lines 172-184): the first `finditer`
match whose end is exactly the end of the string, if any. -/
def Snippet.re_match (r : Regex) (s : PyStr) : Option (Nat × Nat) :=
  (reFindIter r s).find? (fun m => m.2 == s.length)

/-- Result of a matching attempt: the returned truthiness, the `_matched`
attribute, and the `_last_re` attribute as far as this call sets it. -/
structure MatchRes where
  ok : Bool
  matched : PyStr
  lastRe : Option (Nat × Nat)
deriving DecidableEq

/-- Model of `Snippet.matches` (lines 190-221), up to and including the
default `_matched = _t` fix-up, but before the `b` option check: the
trailing-whitespace guard, then the `r` / `w` / `i` / default dispatch. -/
def Snippet.matchesCore (sn : Snippet) (before : PyStr) : MatchRes :=
  if before ≠ [] ∧ pyRstrip before ≠ before then ⟨false, [], none⟩
  else
    let words := Snippet.words_for_line sn.t before none
    let res : Bool × PyStr × Option (Nat × Nat) :=
      if sn.opts.contains 'r' then
        match Snippet.re_match sn.re before with
        | some m => (true, pySlice before m.1 m.2, some m)
        | none => (false, [], none)
      else if sn.opts.contains 'w' then
        let wlen : Int := (sn.t.length : Int)
        let wp := pySliceTo words (-wlen)
        let ws := pySliceFrom words (-wlen)
        let m0 : Bool := ws == sn.t
        let m : Bool :=
          if m0 && !wp.isEmpty then reBoundaryMatch (pySliceFrom wp (-1) ++ pySliceTo ws 1)
          else m0
        (m, [], none)
      else if sn.opts.contains 'i' then (pyEndsWith words sn.t, [], none)
      else (words == sn.t, [], none)
    let matched := if res.1 && res.2.1.isEmpty then sn.t else res.2.1
    ⟨res.1, matched, res.2.2⟩

/-- Model of `Snippet.matches` (lines 190-230): `matchesCore` followed by
the `b` option check, which rejects the match (resetting `_matched`)
unless `before.rstrip()[:-len(_matched)]` strips to nothing with
`strip(" \t")`. -/
def Snippet.matches (sn : Snippet) (before : PyStr) : MatchRes :=
  let r := Snippet.matchesCore sn before
  if sn.opts.contains 'b' && r.ok then
    let text_before := pySliceTo (pyRstrip before) (-(r.matched.length : Int))
    if pyStripSpaceTab text_before ≠ [] then ⟨false, [], r.lastRe⟩ else r
  else r

/-- Model of `Snippet.could_match` (lines 232-274): `before` is emptied when
it ends in a space or tab; the identity-based `rstrip` guard; then the
dispatch accepting prefix matches of the trigger, the default `_matched`
fix-up and the `b` check (on the possibly emptied string). -/
def Snippet.could_match (sn : Snippet) (before : PyStr) : MatchRes :=
  let trigger :=
    if before ≠ [] ∧ (before.getLast? = some ' ' ∨ before.getLast? = some '\t') then []
    else before
  if trigger ≠ [] ∧ pyRstrip trigger ≠ trigger then ⟨false, [], none⟩
  else
    let words := Snippet.words_for_line sn.t trigger none
    let res : Bool × PyStr × Option (Nat × Nat) :=
      if sn.opts.contains 'r' then
        match Snippet.re_match sn.re trigger with
        | some m => (true, pySlice trigger m.1 m.2, some m)
        | none => (false, [], none)
      else if sn.opts.contains 'w' then
        let ws := pySubBoundaryTrim words
        let m : Bool := if ws ≠ words then false else pyStartsWith sn.t ws
        (m, ws, none)
      else if sn.opts.contains 'i' then (pyStartsWith sn.t words, [], none)
      else (pyStartsWith sn.t words, [], none)
    let matched := if res.1 && res.2.1.isEmpty then words else res.2.1
    if sn.opts.contains 'b' && res.1 then
      let text_before := pySliceTo (pyRstrip trigger) (-(matched.length : Int))
      if pyStripSpaceTab text_before ≠ [] then ⟨false, [], res.2.2⟩
      else ⟨res.1, matched, res.2.2⟩
    else ⟨res.1, matched, res.2.2⟩

/-! ## Edit-reconciliation window trimming (`SnippetManager.cursor_moved`) -/

/-- The trailing-lines loop of `cursor_moved` (lines 557-563): starting from
the spans `[ltLo, ltHi)` and `[ctLo, ctHi)`, repeatedly drop the last line
of both windows while the two last lines are equal, both spans are
non-empty, and both the previous (`ppos`) and current (`pos`) cursor lines
lie strictly above the last window line (`ppos < iLine + ltHi - 1` and
`pos < iLine + ctHi - 1` in the source).  Returns the final `(ltHi, ctHi)`.
Buffer lines are compared by value, as Python `==` does. -/
def trimBack (lt ct : List PyStr) (ppos pos iLine ltLo ctLo : Nat) :
    Nat → Nat → Nat × Nat
  | 0, ctHi => (0, ctHi)
  | ltH + 1, ctHi =>
    if ltLo < ltH + 1 ∧ ctLo < ctHi ∧ lt.getD ltH [] = ct.getD (ctHi - 1) [] ∧
        ppos + 1 < iLine + (ltH + 1) ∧ pos + 1 < iLine + ctHi then
      trimBack lt ct ppos pos iLine ltLo ctLo ltH (ctHi - 1)
    else (ltH + 1, ctHi)

/-- The leading-lines loop of `cursor_moved` (lines 564-570): repeatedly
drop the first line of both windows (advancing `initial_line`) while the two
first lines are equal, both spans are non-empty, and both cursor lines are
at or below `initial_line`.  The fuel is exhausted only when `ltLo` reaches
`ltHi`, where the guard fails anyway.  Returns `(iLine, ltLo, ctLo)`. -/
def trimFront (lt ct : List PyStr) (ppos pos ltHi ctHi : Nat) :
    Nat → Nat → Nat → Nat → Nat × Nat × Nat
  | 0, iLine, ltLo, ctLo => (iLine, ltLo, ctLo)
  | f + 1, iLine, ltLo, ctLo =>
    if ltLo < ltHi ∧ ctLo < ctHi ∧ lt.getD ltLo [] = ct.getD ctLo [] ∧
        iLine ≤ ppos ∧ iLine ≤ pos then
      trimFront lt ct ppos pos ltHi ctHi f (iLine + 1) (ltLo + 1) (ctLo + 1)
    else (iLine, ltLo, ctLo)

/-- The window of `cursor_moved` Step 1: `initial_line` and the two spans
into the remembered text `lt` and the current text `ct`. -/
structure TrimSpans where
  iLine : Nat
  ltLo : Nat
  ltHi : Nat
  ctLo : Nat
  ctHi : Nat
deriving DecidableEq

/-- Model of the window-trimming step of `SnippetManager.cursor_moved`
(lines 551-573): when both texts are non-empty, strip equal trailing lines,
then equal leading lines, under the cursor-position conditions; afterwards
the code widens the window by one line on the leading side only
(`ct_span[0] = max(0, ct_span[0]-1)`, likewise `lt_span[0]` and
`initial_line`); the trailing bounds are left where the loop put them.
`cstart` is the first line of the snippet, `ppos`/`pos` the previous and
current cursor lines. -/
def cursorMovedTrim (cstart : Nat) (lt ct : List PyStr) (ppos pos : Nat) : TrimSpans :=
  if lt ≠ [] ∧ ct ≠ [] then
    let back := trimBack lt ct ppos pos cstart 0 0 lt.length ct.length
    let front := trimFront lt ct ppos pos back.1 back.2 back.1 cstart 0 0
    ⟨max cstart (front.1 - 1), front.2.1 - 1, back.1, front.2.2 - 1, back.2⟩
  else ⟨cstart, 0, lt.length, 0, ct.length⟩

/-- The window-trimming step as the claim describes it, following its words:
the same stripping loops, but the kept window is widened by one line on
EACH trimmed side — the leading side (as the code does) and also the
trailing side (restoring one stripped trailing line, capped at the text
length). -/
def cursorMovedTrimClaim (cstart : Nat) (lt ct : List PyStr) (ppos pos : Nat) : TrimSpans :=
  if lt ≠ [] ∧ ct ≠ [] then
    let back := trimBack lt ct ppos pos cstart 0 0 lt.length ct.length
    let front := trimFront lt ct ppos pos back.1 back.2 back.1 cstart 0 0
    ⟨max cstart (front.1 - 1), front.2.1 - 1, min lt.length (back.1 + 1),
      front.2.2 - 1, min ct.length (back.2 + 1)⟩
  else ⟨cstart, 0, lt.length, 0, ct.length⟩

/-! ## The `s` option trim during a jump (`SnippetManager._jump`) -/

/-- Model of `re.match(r'(.*?)\s+$', before)` (line 648): matches iff
`before` ends in at least one whitespace character and the part before the
trailing whitespace run contains no newline (`.` cannot match one); group 1
is that part, i.e. `before.rstrip()`. -/
def sOptionTrimMatch (before : PyStr) : Option PyStr :=
  if pyRstrip before ≠ before ∧ ¬ '\n' ∈ pyRstrip before then some (pyRstrip before)
  else none

/-- Model of the line edit performed by `SnippetManager._jump` when a
tabstop was selected (lines 645-652): if the snippet has the `s` option,
nothing follows the cursor (`after == ""`), and the trim regex matches the
text before the cursor, the whole line is replaced by the regex's group 1;
otherwise the line `before ++ after` is left as it is. -/
def jumpLineEdit (hasS : Bool) (before after : PyStr) : PyStr :=
  if hasS && after.isEmpty then
    match sOptionTrimMatch before with
    | some g => g
    | none => before ++ after
  else before ++ after

/-- The per-instance jump bookkeeping of the embedding: `hasS` is
`snippet.has_option("s")`; `jumpsTaken` counts the jumps already performed
on this snippet instance.  The counter exists only to state the claim about
"the very first jump": the code's line edit (lines 645-652) does not
consult it. -/
structure JumpInst where
  hasS : Bool
  jumpsTaken : Nat
deriving DecidableEq

/-- One `_jump` call that selected a tabstop, acting on the current line
split as `(before, after)`: the jump counter advances and the line is
edited exactly as `jumpLineEdit` does, on every jump alike. -/
def doJumpLine (inst : JumpInst) (before after : PyStr) : JumpInst × PyStr :=
  (⟨inst.hasS, inst.jumpsTaken + 1⟩, jumpLineEdit inst.hasS before after)

/-! ## Visual-content preservation (`VisualContentPreserver`, `_do_snippet`) -/

/-- State of `VisualContentPreserver` (lines 319-353): the last
visually-selected mode and text. -/
structure VisualContentPreserver where
  mode : PyStr
  text : PyStr
deriving DecidableEq

/-- The state `VisualContentPreserver.reset` (lines 323-325) leaves behind:
empty mode and empty text. -/
def VisualContentPreserver.resetState : VisualContentPreserver :=
  ⟨[], []⟩

/-- Visual-content data flow of `SnippetManager._do_snippet` (lines
754-780): the launched instance receives the current `_visual_content`
(lines 767 and 772) and afterwards `self._visual_content.reset()` runs
unconditionally (line 774).  `refsVisual` records whether the expanded
template references the preserved visual content; the code never consults
it.  Returns (content handed to `launch`, state after the expansion). -/
def doSnippetVisual (refsVisual : Bool) (v : VisualContentPreserver) :
    VisualContentPreserver × VisualContentPreserver :=
  (v, VisualContentPreserver.resetState)

/-- Contents successive expansions hand to `launch`, starting from state
`v`, one expansion per entry of `refs` (each entry recording whether that
expansion's template references the visual content). -/
def expansionContents (v : VisualContentPreserver) : List Bool → List VisualContentPreserver
  | [] => []
  | r :: rs => (doSnippetVisual r v).1 :: expansionContents (doSnippetVisual r v).2 rs

/-! ## IndexError swallowing in `cursor_moved` -/

/-- Python exceptions relevant to the `try` block of `cursor_moved`. -/
inductive PyExc where
  | indexError : PyExc
  | other : PyExc
deriving DecidableEq

/-- Model of the `try/except IndexError: pass` block of
`SnippetManager.cursor_moved` (lines 578-586).  The body — `guess_edit`,
`diff` and `replay_user_edits`, which live in `UltiSnips._diff` and
`UltiSnips.text_objects`, outside the provided source — is abstracted as a
state transformer on the tabstop-tree state that either returns the updated
state or raises.  Modelled from the spec: per §4.3, a failing replay raises
an index-range error and the model is treated as unchanged for that pass;
the handler itself (`except IndexError: pass`) is taken from the source:
an `IndexError` is swallowed and the state kept, any other exception
propagates (to the `err_to_scratch_buffer` boundary). -/
def cursorMovedReplay {σ : Type} (body : σ → Except PyExc σ) (s : σ) : Except PyExc σ :=
  match body s with
  | .ok s' => .ok s'
  | .error .indexError => .ok s
  | .error e => .error e

/-! ## Snippet lookup (`SnippetManager._snips`) -/

/-- The Python dict `snippets` of `_snips`, keyed by trigger text. -/
abbrev SnipDict := List (PyStr × List Snippet)

/-- Dictionary lookup (`s.trigger in snippets` / `snippets[s.trigger]`). -/
def dictGet : SnipDict → PyStr → Option (List Snippet)
  | [], _ => none
  | (k, v) :: rest, tr => if k = tr then some v else dictGet rest tr

/-- Dictionary assignment (`snippets[s.trigger] = ...`). -/
def dictSet : SnipDict → PyStr → List Snippet → SnipDict
  | [], tr, v => [(tr, v)]
  | (k, w) :: rest, tr, v =>
    if k = tr then (k, v) :: rest else (k, w) :: dictSet rest tr v

/-- One iteration of the overwrite loop of `_snips` (lines 736-739): if the
trigger is not yet a key, or the snippet has the `!` option
(`overwrites_previous`), the trigger's list is reset to empty; then the
snippet is appended to its trigger's list. -/
def snipsStep (m : SnipDict) (s : Snippet) : SnipDict :=
  match dictGet m s.trigger with
  | none => dictSet m s.trigger [s]
  | some cur =>
    if s.overwrites_previous then dictSet m s.trigger [s]
    else dictSet m s.trigger (cur ++ [s])

/-- The dict built by the overwrite loop of `_snips` over the found
snippets, in their original (load) order. -/
def snipsMap (found : List Snippet) : SnipDict :=
  found.foldl snipsStep []

/-- Model of `SnippetManager._snips` (lines 722-752) after the providers
returned `found`, the list of matching snippets in load order: build the
overwrite dict, flatten its values into the selected set, and return the
found snippets that are in the selected set, in their original order. -/
def SnippetManager.snipsOf (found : List Snippet) : List Snippet :=
  let m := snipsMap found
  found.filter (fun s => m.any (fun p => p.2.contains s))

/-- Per-trigger evolution of one dict bucket under `snipsStep`, used to
characterise `snipsMap`: a `!` snippet of this trigger resets the bucket to
itself, other snippets of this trigger append, anything else is ignored. -/
def bucketStep (tr : PyStr) (b : Option (List Snippet)) (s : Snippet) :
    Option (List Snippet) :=
  if s.trigger = tr then
    some (match b with
      | none => [s]
      | some cur => if s.overwrites_previous then [s] else cur ++ [s])
  else b

/-- Per-trigger evolution of the surviving snippets of one trigger, used to
characterise the bucket contents. -/
def keptStep (tr : PyStr) (acc : List Snippet) (s : Snippet) : List Snippet :=
  if s.trigger = tr then (if s.overwrites_previous then [s] else acc ++ [s]) else acc

/-! ## Shared helper lemmas -/

/-- Bridge from non-membership to `List.contains` being `false`. -/
theorem contains_eq_false {c : Char} {l : List Char} (h : c ∉ l) : l.contains c = false := by
  cases hc : l.contains c
  · rfl
  · exact absurd (List.mem_of_elem_eq_true hc) h

/-- The result of `pyRstrip` is a prefix of the input. -/
theorem pyRstrip_isPre (s : PyStr) : pyRstrip s <+: s := by
  have h : s.reverse.dropWhile pyIsSpace <:+ s.reverse := List.dropWhile_suffix pyIsSpace
  have h2 := List.reverse_prefix.mpr h
  simpa [pyRstrip] using h2

/-- A string whose last character is a space or tab is changed by
`pyRstrip`. -/
theorem pyRstrip_ne_of_getLast {before : PyStr}
    (h : before.getLast? = some ' ' ∨ before.getLast? = some '\t') :
    pyRstrip before ≠ before := by
  have hh : before.reverse.head? = some ' ' ∨ before.reverse.head? = some '\t' := by
    rwa [List.head?_reverse]
  intro heq
  have hlen : (pyRstrip before).length = before.length := by rw [heq]
  have hlt : (pyRstrip before).length < before.length := by
    cases hrev : before.reverse with
    | nil => rw [hrev] at hh; simp at hh
    | cons c rest =>
      rw [hrev] at hh
      have hc : pyIsSpace c = true := by
        rcases hh with hc | hc <;> simp at hc <;> simp [hc, pyIsSpace]
      have hdw : before.reverse.dropWhile pyIsSpace = rest.dropWhile pyIsSpace := by
        rw [hrev, List.dropWhile_cons, if_pos hc]
      have hle : (rest.dropWhile pyIsSpace).length ≤ rest.length :=
        (List.dropWhile_suffix pyIsSpace).length_le
      have hblen : before.length = rest.length + 1 := by
        have := congrArg List.length hrev
        simpa using this
      simp only [pyRstrip, List.length_reverse, hdw]
      omega
  omega

/-! ## Claim C5 — IndexError during reconciliation is swallowed -/

/-- C5: if the classify/diff/replay body of `cursor_moved` raises an
`IndexError`, the exception is swallowed — the replay pass is abandoned,
the tree state is returned unchanged, and no error propagates to the
caller. -/
theorem C5_indexerror_swallowed {σ : Type} (body : σ → Except PyExc σ) (s : σ)
    (h : body s = Except.error PyExc.indexError) :
    cursorMovedReplay body s = Except.ok s := by
  unfold cursorMovedReplay
  rw [h]

/-- Witness for C5 at a concrete state and a body that raises. -/
theorem C5_witness :
    cursorMovedReplay (fun _ : Nat => Except.error PyExc.indexError) 7 = Except.ok 7 :=
  C5_indexerror_swallowed (fun _ : Nat => Except.error PyExc.indexError) 7 rfl

/-! ## Claim C4 — visual content consumed once / preserved -/

/-- C4 counterexample: an expansion whose template does not reference the
preserved visual content (`refsVisual = false`) does NOT leave the
preserved state intact: `_do_snippet` resets it unconditionally. -/
theorem C4_counterexample :
    (doSnippetVisual false ⟨['v'], ['h','i']⟩).2 ≠
      (⟨['v'], ['h','i']⟩ : VisualContentPreserver) := by
  decide

/-- Helper for C4: starting from the reset state, every expansion hands the
reset (empty) content to `launch`. -/
theorem expansionContents_reset (rs : List Bool) :
    expansionContents VisualContentPreserver.resetState rs =
      rs.map (fun _ => VisualContentPreserver.resetState) := by
  induction rs with
  | nil => rfl
  | cons r rs ih => simp [expansionContents, doSnippetVisual, ih]

/-- C4 (amended): the preserved visual state is handed to the next snippet
expansion — whichever it is, whether or not its template references it —
and is cleared by that expansion: in any sequence of expansions, only the
first receives the preserved content, every later one receives the reset
(empty) state. -/
theorem C4_visual_consumed_by_first_expansion (v : VisualContentPreserver)
    (r : Bool) (rs : List Bool) :
    expansionContents v (r :: rs) =
      v :: rs.map (fun _ => VisualContentPreserver.resetState) := by
  simp [expansionContents, doSnippetVisual, expansionContents_reset]

/-! ## Claim C3 — the `s` option trims only on the very first jump -/

/-- C3 counterexample: a jump on an instance that has already jumped once
(`jumpsTaken = 1`, so this is not the very first jump) still trims the
trailing whitespace: the line `"x  "` with nothing after the cursor becomes
`"x"`, not the unchanged `"x  "` the claim requires of subsequent jumps. -/
theorem C3_counterexample :
    (doJumpLine ⟨true, 1⟩ ['x', ' ', ' '] []).2 = ['x'] ∧
    (doJumpLine ⟨true, 1⟩ ['x', ' ', ' '] []).2 ≠ ['x', ' ', ' '] ++ ([] : PyStr) ∧
    (doJumpLine ⟨true, 1⟩ ['x', ' ', ' '] []).1.jumpsTaken = 2 := by
  decide

/-- C3 (amended): the `s`-option trim happens on every jump that selects a
tabstop, not only the first one — the line edit is independent of how many
jumps the instance has already taken, and it fires exactly when the snippet
has the `s` option, nothing follows the cursor, and the text before the
cursor ends in whitespace (with no newline left of it, which `.` cannot
match); it then replaces the line by the right-stripped text. -/
theorem C3_trim_on_every_jump (hasS : Bool) (n m : Nat) (before after : PyStr) :
    (doJumpLine ⟨hasS, n⟩ before after).2 = (doJumpLine ⟨hasS, m⟩ before after).2 ∧
    (doJumpLine ⟨hasS, n⟩ before after).2 =
      (if hasS = true ∧ after = [] ∧ (pyRstrip before ≠ before ∧ ¬ '\n' ∈ pyRstrip before)
       then pyRstrip before else before ++ after) := by
  refine ⟨rfl, ?_⟩
  unfold doJumpLine jumpLineEdit sOptionTrimMatch
  by_cases h1 : hasS = true
  · by_cases h2 : after = []
    · by_cases h3 : pyRstrip before ≠ before ∧ ¬ '\n' ∈ pyRstrip before
      · simp [h1, h2, h3]
      · simp [h1, h2, h3]
    · simp [h1, h2]
  · simp [h1]

/-! ## Claim C2 — the default (no `r`/`w`/`i`) matching rule -/

/-- C2 (amended): for a definition whose options contain none of `r`, `w`,
`i` and `b`, and a `before` with no trailing whitespace, `matches(before)`
holds iff the trailing token run computed by `_words_for_line` equals the
trigger text; when `before` ends in whitespace, `matches` is always
false. -/
theorem C2_default_match_iff (sn : Snippet) (before : PyStr)
    (hr : 'r' ∉ sn.opts) (hw : 'w' ∉ sn.opts) (hi : 'i' ∉ sn.opts) (hb : 'b' ∉ sn.opts) :
    (pyRstrip before = before →
      ((Snippet.matches sn before).ok = true ↔
        Snippet.words_for_line sn.t before none = sn.t)) ∧
    (pyRstrip before ≠ before → (Snippet.matches sn before).ok = false) := by
  have hr' := contains_eq_false hr
  have hw' := contains_eq_false hw
  have hi' := contains_eq_false hi
  have hb' := contains_eq_false hb
  constructor
  · intro hws
    simp [Snippet.matches, Snippet.matchesCore, hr, hw, hi, hb, hws, beq_iff_eq]
  · intro hws
    have hne : before ≠ [] := by
      intro h
      apply hws
      rw [h]
      rfl
    simp [Snippet.matches, Snippet.matchesCore, hne, hws]

/-- Witness for C2 at `T = "foo"`, `before = "x foo"`. -/
theorem C2_witness :
    (Snippet.matches ⟨0, ['f','o','o'], Regex.eps, []⟩ ['x',' ','f','o','o']).ok = true :=
  ((C2_default_match_iff ⟨0, ['f','o','o'], Regex.eps, []⟩ ['x',' ','f','o','o']
      (by decide) (by decide) (by decide) (by decide)).1 (by decide)).mpr (by decide)

/-- C2 counterexample: the claim's unconditional iff fails.  With
`T = "foo"` and no options, `before = "foo "` has trailing token run
`"foo" = T` but `matches` returns false (trailing-whitespace guard); with
option set `{b}` — which contains none of `r`, `w`, `i` — the run of
`before = "x foo"` equals `T` but `matches` returns false (`b` check). -/
theorem C2_counterexample :
    ((Snippet.matches ⟨0, ['f','o','o'], Regex.eps, []⟩ ['f','o','o',' ']).ok = false ∧
      Snippet.words_for_line ['f','o','o'] ['f','o','o',' '] none = ['f','o','o']) ∧
    ((Snippet.matches ⟨0, ['f','o','o'], Regex.eps, ['b']⟩ ['x',' ','f','o','o']).ok = false ∧
      Snippet.words_for_line ['f','o','o'] ['x',' ','f','o','o'] none = ['f','o','o']) := by
  decide

/-! ## Claim C7 — the `w` (word) matching rule -/

/-- C7 (amended): for a definition with option `w` (without `r` and `b`)
and a `before` with no trailing whitespace, `matches` holds iff the
trailing `len(T)` characters of the trailing word-run equal `T` and, when a
non-empty part of the word-run remains before that suffix, there is a regex
word boundary between its last character and `T`'s first character. -/
theorem C7_w_match_iff (sn : Snippet) (before : PyStr)
    (hw : 'w' ∈ sn.opts) (hr : 'r' ∉ sn.opts) (hb : 'b' ∉ sn.opts)
    (hws : pyRstrip before = before) :
    ((Snippet.matches sn before).ok = true ↔
      (pySliceFrom (Snippet.words_for_line sn.t before none) (-(sn.t.length : Int)) = sn.t ∧
        (pySliceTo (Snippet.words_for_line sn.t before none) (-(sn.t.length : Int)) ≠ [] →
          reBoundaryMatch
            (pySliceFrom
                (pySliceTo (Snippet.words_for_line sn.t before none) (-(sn.t.length : Int)))
                (-1) ++
              pySliceTo sn.t 1) = true))) := by
  have hr' := contains_eq_false hr
  have hb' := contains_eq_false hb
  have hw' : sn.opts.contains 'w' = true := List.elem_eq_true_of_mem hw
  by_cases h1 : pySliceFrom (Snippet.words_for_line sn.t before none) (-(sn.t.length : Int)) = sn.t
  · by_cases h2 : pySliceTo (Snippet.words_for_line sn.t before none) (-(sn.t.length : Int)) = []
    · simp [Snippet.matches, Snippet.matchesCore, hr, hb, hw, hws, h1, h2]
    · simp [Snippet.matches, Snippet.matchesCore, hr, hb, hw, hws, h1, h2]
  · simp [Snippet.matches, Snippet.matchesCore, hr, hb, hw, hws, h1]

/-- Witness for C7: `T = "bar"`, option `w`: `before = "foo.bar"` matches
(boundary between `.` and `b`), `before = "foobar"` does not (no word
boundary between `o` and `b`). -/
theorem C7_witness :
    (Snippet.matches ⟨0, ['b','a','r'], Regex.eps, ['w']⟩
        ['f','o','o','.','b','a','r']).ok = true ∧
    (Snippet.matches ⟨0, ['b','a','r'], Regex.eps, ['w']⟩
        ['f','o','o','b','a','r']).ok = false := by
  constructor
  · exact (C7_w_match_iff ⟨0, ['b','a','r'], Regex.eps, ['w']⟩ ['f','o','o','.','b','a','r']
      (by decide) (by decide) (by decide) (by decide)).mpr (by decide)
  · have h := C7_w_match_iff ⟨0, ['b','a','r'], Regex.eps, ['w']⟩ ['f','o','o','b','a','r']
      (by decide) (by decide) (by decide) (by decide)
    cases hok : (Snippet.matches ⟨0, ['b','a','r'], Regex.eps, ['w']⟩
        ['f','o','o','b','a','r']).ok
    · rfl
    · exact absurd ((h.mp hok).2 (by decide)) (by decide)

/-- C7 counterexample: the claim's unconditional iff fails on a `before`
with trailing whitespace: for `T = "bar"`, option `w`, and
`before = "bar "`, the trailing `len(T)` characters of the trailing
word-run equal `T` with an empty remaining prefix (so the claim's
right-hand side holds), yet `matches` returns false. -/
theorem C7_counterexample :
    (Snippet.matches ⟨0, ['b','a','r'], Regex.eps, ['w']⟩ ['b','a','r',' ']).ok = false ∧
    pySliceFrom (Snippet.words_for_line ['b','a','r'] ['b','a','r',' '] none)
        (-(3 : Int)) = ['b','a','r'] ∧
    pySliceTo (Snippet.words_for_line ['b','a','r'] ['b','a','r',' '] none)
        (-(3 : Int)) = [] := by
  decide

/-! ## Claim C9 — the `b` (boundary) option -/

/-- C9 (amended): whenever the base strategy matches and option `b` is set,
the overall match holds iff `before.rstrip()[:-len(matched)]` consists only
of spaces and tabs (Python `strip(" \t")` — not arbitrary whitespace);
when rejected, the matched substring is reset to empty. -/
theorem C9_b_boundary_check (sn : Snippet) (before : PyStr)
    (hb : 'b' ∈ sn.opts) (hcore : (Snippet.matchesCore sn before).ok = true) :
    ((Snippet.matches sn before).ok = true ↔
      pyStripSpaceTab (pySliceTo (pyRstrip before)
          (-((Snippet.matchesCore sn before).matched.length : Int))) = []) ∧
    ((Snippet.matches sn before).ok = false →
      (Snippet.matches sn before).matched = []) := by
  have hb' : sn.opts.contains 'b' = true := List.elem_eq_true_of_mem hb
  by_cases h : pyStripSpaceTab (pySliceTo (pyRstrip before)
      (-((Snippet.matchesCore sn before).matched.length : Int))) = []
  · constructor
    · simp [Snippet.matches, hb, hcore, h]
    · simp [Snippet.matches, hb, hcore, h]
  · constructor
    · simp [Snippet.matches, hb, hcore, h]
    · simp [Snippet.matches, hb, hcore, h]

/-- Witness for C9 at `T = "fn"`, option `b`, `before = "   fn"`. -/
theorem C9_witness :
    (Snippet.matches ⟨0, ['f','n'], Regex.eps, ['b']⟩ [' ',' ',' ','f','n']).ok = true :=
  ((C9_b_boundary_check ⟨0, ['f','n'], Regex.eps, ['b']⟩ [' ',' ',' ','f','n']
      (by decide) (by decide)).1).mpr (by decide)

/-- C9 counterexample: the claim says the match is kept whenever the text
preceding the matched substring is entirely whitespace; but for
`T = "fn"`, option `b`, `before = "\x0c fn"` the preceding text
`"\x0c "` is entirely (Python) whitespace and non-empty, the base strategy
matches, yet `matches` rejects — the code strips only spaces and tabs. -/
theorem C9_counterexample :
    (Snippet.matchesCore ⟨0, ['f','n'], Regex.eps, ['b']⟩ ['\x0c',' ','f','n']).ok = true ∧
    (pySliceTo (pyRstrip ['\x0c',' ','f','n'])
        (-((Snippet.matchesCore ⟨0, ['f','n'], Regex.eps, ['b']⟩
            ['\x0c',' ','f','n']).matched.length : Int))).all pyIsSpace = true ∧
    (pySliceTo (pyRstrip ['\x0c',' ','f','n'])
        (-((Snippet.matchesCore ⟨0, ['f','n'], Regex.eps, ['b']⟩
            ['\x0c',' ','f','n']).matched.length : Int))) ≠ [] ∧
    (Snippet.matches ⟨0, ['f','n'], Regex.eps, ['b']⟩ ['\x0c',' ','f','n']).ok = false := by
  decide

/-! ## Claim C10 — `could_match` after trailing whitespace -/

/-- C10: for any definition without option `r` and any non-empty `before`
ending in a space or tab, `could_match` empties `before`, succeeds with an
empty matched substring — so every such definition is offered as a
candidate — while `matches` fails on the same `before`. -/
theorem C10_could_match_trailing_ws (sn : Snippet) (before : PyStr)
    (hr : 'r' ∉ sn.opts) (hne : before ≠ [])
    (hlast : before.getLast? = some ' ' ∨ before.getLast? = some '\t') :
    (Snippet.could_match sn before).ok = true ∧
    (Snippet.could_match sn before).matched = [] ∧
    (Snippet.matches sn before).ok = false := by
  have hr' := contains_eq_false hr
  have hrs : pyRstrip before ≠ before := pyRstrip_ne_of_getLast hlast
  have hcm : Snippet.could_match sn before = ⟨true, [], none⟩ := by
    simp only [Snippet.could_match, if_pos (⟨hne, hlast⟩ :
      before ≠ [] ∧ (before.getLast? = some ' ' ∨ before.getLast? = some '\t'))]
    by_cases hcw : 'w' ∈ sn.opts <;> by_cases hci : 'i' ∈ sn.opts <;>
      by_cases hcb : 'b' ∈ sn.opts <;>
      simp [hr, hcw, hci, hcb, Snippet.words_for_line, pySubBoundaryTrim,
        lastBoundaryIdx, pyStartsWith, List.isPrefixOf, pySliceTo, pyRstrip,
        pyStripSpaceTab, pyIsSpace]
  have hmc : Snippet.matchesCore sn before = ⟨false, [], none⟩ := by
    simp only [Snippet.matchesCore, if_pos (⟨hne, hrs⟩ :
      before ≠ [] ∧ pyRstrip before ≠ before)]
  refine ⟨by rw [hcm], by rw [hcm], ?_⟩
  simp [Snippet.matches, hmc]

/-- Witness for C10 at `T = "foo"`, option `w`, `before = "x "`. -/
theorem C10_witness :
    (Snippet.could_match ⟨0, ['f','o','o'], Regex.eps, ['w']⟩ ['x',' ']).ok = true ∧
    (Snippet.could_match ⟨0, ['f','o','o'], Regex.eps, ['w']⟩ ['x',' ']).matched = [] ∧
    (Snippet.matches ⟨0, ['f','o','o'], Regex.eps, ['w']⟩ ['x',' ']).ok = false :=
  C10_could_match_trailing_ws ⟨0, ['f','o','o'], Regex.eps, ['w']⟩ ['x',' ']
    (by decide) (by decide) (by decide)

/-! ## Claim C8 — the `r` (regex) matching rule -/

/-- C8 (amended): for a definition with option `r` (no `b`) whose `before`
has no trailing whitespace, `matches` succeeds iff the left-to-right,
non-overlapping `finditer` scan yields a match ending exactly at the end of
`before`; on success `_last_re` retains the first such match and, when its
span is non-empty, `_matched` is exactly that span of `before`. -/
theorem C8_r_match (sn : Snippet) (before : PyStr)
    (hr : 'r' ∈ sn.opts) (hb : 'b' ∉ sn.opts) (hws : pyRstrip before = before) :
    ((Snippet.matches sn before).ok = true ↔
      ∃ m ∈ reFindIter sn.re before, m.2 = before.length) ∧
    (∀ m, Snippet.re_match sn.re before = some m →
      (Snippet.matches sn before).lastRe = some m ∧
      (m.1 < before.length → (Snippet.matches sn before).matched = before.drop m.1)) := by
  have hr' : sn.opts.contains 'r' = true := List.elem_eq_true_of_mem hr
  have hb' := contains_eq_false hb
  cases h : Snippet.re_match sn.re before with
  | none =>
    have hcore : Snippet.matchesCore sn before = ⟨false, [], none⟩ := by
      simp [Snippet.matchesCore, hws, hr, h]
    have hnex : ¬ ∃ m ∈ reFindIter sn.re before, m.2 = before.length := by
      intro ⟨m, hmem, hend⟩
      have : (Snippet.re_match sn.re before).isSome := by
        unfold Snippet.re_match
        exact List.find?_isSome.mpr ⟨m, hmem, by simp [hend]⟩
      rw [h] at this
      simp at this
    constructor
    · simp [Snippet.matches, hb, hcore, hnex]
    · intro m hm
      simp at hm
  | some m0 =>
    have hfind : (reFindIter sn.re before).find? (fun m => m.2 == before.length) = some m0 := h
    have hp := List.find?_some hfind
    have hp' : m0.2 = before.length := by simpa using hp
    have hmem : m0 ∈ reFindIter sn.re before := List.mem_of_find?_eq_some hfind
    have hcore : Snippet.matchesCore sn before =
        ⟨true, if (pySlice before m0.1 m0.2).isEmpty then sn.t
               else pySlice before m0.1 m0.2, some m0⟩ := by
      simp [Snippet.matchesCore, hws, hr, h]
    constructor
    · constructor
      · intro _
        exact ⟨m0, hmem, hp'⟩
      · intro _
        simp [Snippet.matches, hb, hcore]
    · intro m hm
      injection hm with hmm
      subst hmm
      constructor
      · simp [Snippet.matches, hb, hcore]
      · intro hm1
        have hsl : pySlice before m0.1 m0.2 = before.drop m0.1 := by
          rw [hp']
          unfold pySlice
          rw [← List.length_drop]
          exact List.take_length _
        have hnee : before.drop m0.1 ≠ [] := by
          intro hq
          have := congrArg List.length hq
          simp [List.length_drop] at this
          omega
        have hie : (pySlice before m0.1 m0.2).isEmpty = false := by
          rw [hsl]
          cases hq : (before.drop m0.1).isEmpty
          · rfl
          · exact absurd (List.isEmpty_iff.mp hq) hnee
        simp [Snippet.matches, hb, hcore, hie, hsl]
        intro hcontra
        exact absurd hcontra (by omega)

/-- Witness for C8: trigger regex `aa` with option `r` on
`before = "baa"` — the finditer scan yields the end-anchored match `(1,3)`,
`matches` succeeds and `_matched` is `"aa"`. -/
theorem C8_witness :
    (Snippet.matches ⟨0, ['a','a'], Regex.cat (Regex.ch 'a') (Regex.ch 'a'), ['r']⟩
        ['b','a','a']).ok = true ∧
    (Snippet.matches ⟨0, ['a','a'], Regex.cat (Regex.ch 'a') (Regex.ch 'a'), ['r']⟩
        ['b','a','a']).matched = ['a','a'] := by
  have h := C8_r_match ⟨0, ['a','a'], Regex.cat (Regex.ch 'a') (Regex.ch 'a'), ['r']⟩
    ['b','a','a'] (by decide) (by decide) (by decide)
  exact ⟨h.1.mpr ⟨(1, 3), by decide, by decide⟩, (h.2 (1, 3) (by decide)).2 (by decide)⟩

/-- C8 counterexample: the claim reads "matches succeeds iff the trigger
regex has a match in `before` ending exactly at its end".  For the trigger
regex `aa` and `before = "aaa"` such a match exists (`aa` matches the final
two characters, as the derivative semantics confirms), yet `matches`
returns false: `finditer` consumes the non-overlapping match `(0,2)` first
and never yields one ending at 3. -/
theorem C8_counterexample :
    (Snippet.matches ⟨0, ['a','a'], Regex.cat (Regex.ch 'a') (Regex.ch 'a'), ['r']⟩
        ['a','a','a']).ok = false ∧
    Regex.rmatch (Regex.cat (Regex.ch 'a') (Regex.ch 'a'))
        (List.drop 1 ['a','a','a']) = true ∧
    reFindIter (Regex.cat (Regex.ch 'a') (Regex.ch 'a')) ['a','a','a'] = [(0, 2)] := by
  decide

/-! ## Claim C1 — window widening in `cursor_moved` Step 1 -/

/-- Helper for C1: the trailing-strip loop lowers the two upper bounds by
the same amount, never below zero, and every stripped pair of lines is
equal between the two texts. -/
theorem trimBack_spec (lt ct : List PyStr) (ppos pos iLine ltLo ctLo : Nat) :
    ∀ h1 h2,
      (trimBack lt ct ppos pos iLine ltLo ctLo h1 h2).1 ≤ h1 ∧
      (trimBack lt ct ppos pos iLine ltLo ctLo h1 h2).2 ≤ h2 ∧
      h1 - (trimBack lt ct ppos pos iLine ltLo ctLo h1 h2).1 =
        h2 - (trimBack lt ct ppos pos iLine ltLo ctLo h1 h2).2 ∧
      (∀ k, k < h1 - (trimBack lt ct ppos pos iLine ltLo ctLo h1 h2).1 →
        lt.getD ((trimBack lt ct ppos pos iLine ltLo ctLo h1 h2).1 + k) [] =
          ct.getD ((trimBack lt ct ppos pos iLine ltLo ctLo h1 h2).2 + k) []) := by
  intro h1
  induction h1 with
  | zero =>
    intro h2
    simp [trimBack]
  | succ n ih =>
    intro h2
    by_cases hg : ltLo < n + 1 ∧ ctLo < h2 ∧ lt.getD n [] = ct.getD (h2 - 1) [] ∧
        ppos + 1 < iLine + (n + 1) ∧ pos + 1 < iLine + h2
    · have hstep : trimBack lt ct ppos pos iLine ltLo ctLo (n + 1) h2 =
          trimBack lt ct ppos pos iLine ltLo ctLo n (h2 - 1) := by
        simp only [trimBack, if_pos hg]
      obtain ⟨r1le, r2le, hcnt, hlines⟩ := ih (h2 - 1)
      have hh2 : 1 ≤ h2 := Nat.lt_of_le_of_lt (Nat.zero_le _) hg.2.1
      rw [hstep]
      refine ⟨by omega, by omega, by omega, ?_⟩
      intro k hk
      by_cases hkn : k < n - (trimBack lt ct ppos pos iLine ltLo ctLo n (h2 - 1)).1
      · exact hlines k hkn
      · have hr1 : (trimBack lt ct ppos pos iLine ltLo ctLo n (h2 - 1)).1 + k = n := by omega
        have hr2 : (trimBack lt ct ppos pos iLine ltLo ctLo n (h2 - 1)).2 + k = h2 - 1 := by
          omega
        rw [hr1, hr2]
        exact hg.2.2.1
    · have hstep : trimBack lt ct ppos pos iLine ltLo ctLo (n + 1) h2 = (n + 1, h2) := by
        simp only [trimBack, if_neg hg]
      rw [hstep]
      refine ⟨Nat.le_refl _, Nat.le_refl _, by omega, ?_⟩
      intro k hk
      exact absurd hk (by omega)

/-- C1 (amended): after stripping equal trailing lines and then equal
leading lines under the cursor conditions, the kept window is widened by
one line on the trimmed leading side only; the trailing side is NOT widened
— the code's window and the claim's window agree on `initial_line` and the
lower bounds, and differ on the upper bounds exactly by the claim's extra
one-line trailing margin.  The trailing lines the code strips without a
margin are equally many in both texts and pairwise equal, so no differing
line is lost. -/
theorem C1_window_widening (cstart : Nat) (lt ct : List PyStr) (ppos pos : Nat) :
    ((cursorMovedTrimClaim cstart lt ct ppos pos).iLine =
        (cursorMovedTrim cstart lt ct ppos pos).iLine ∧
      (cursorMovedTrimClaim cstart lt ct ppos pos).ltLo =
        (cursorMovedTrim cstart lt ct ppos pos).ltLo ∧
      (cursorMovedTrimClaim cstart lt ct ppos pos).ctLo =
        (cursorMovedTrim cstart lt ct ppos pos).ctLo) ∧
    ((cursorMovedTrimClaim cstart lt ct ppos pos).ltHi =
        min lt.length ((cursorMovedTrim cstart lt ct ppos pos).ltHi + 1) ∧
      (cursorMovedTrimClaim cstart lt ct ppos pos).ctHi =
        min ct.length ((cursorMovedTrim cstart lt ct ppos pos).ctHi + 1)) ∧
    ((cursorMovedTrim cstart lt ct ppos pos).ltHi ≤ lt.length ∧
      (cursorMovedTrim cstart lt ct ppos pos).ctHi ≤ ct.length ∧
      lt.length - (cursorMovedTrim cstart lt ct ppos pos).ltHi =
        ct.length - (cursorMovedTrim cstart lt ct ppos pos).ctHi ∧
      ∀ k, k < lt.length - (cursorMovedTrim cstart lt ct ppos pos).ltHi →
        lt.getD ((cursorMovedTrim cstart lt ct ppos pos).ltHi + k) [] =
          ct.getD ((cursorMovedTrim cstart lt ct ppos pos).ctHi + k) []) := by
  obtain ⟨hb1, hb2, hb3, hb4⟩ := trimBack_spec lt ct ppos pos cstart 0 0 lt.length ct.length
  by_cases hne : lt ≠ [] ∧ ct ≠ []
  · refine ⟨⟨?_, ?_, ?_⟩, ⟨?_, ?_⟩, ?_, ?_, ?_, ?_⟩ <;>
      simp only [cursorMovedTrim, cursorMovedTrimClaim, if_pos hne] <;>
      first
        | rfl
        | exact hb1
        | exact hb2
        | exact hb3
        | exact hb4
  · have hc : cursorMovedTrim cstart lt ct ppos pos =
        ⟨cstart, 0, lt.length, 0, ct.length⟩ := by
      simp only [cursorMovedTrim, if_neg hne]
    have hcl : cursorMovedTrimClaim cstart lt ct ppos pos =
        ⟨cstart, 0, lt.length, 0, ct.length⟩ := by
      simp only [cursorMovedTrimClaim, if_neg hne]
    rw [hc, hcl]
    refine ⟨⟨rfl, rfl, rfl⟩, ⟨?_, ?_⟩, ?_, ?_, ?_, ?_⟩
    · show lt.length = min lt.length (lt.length + 1)
      omega
    · show ct.length = min ct.length (ct.length + 1)
      omega
    · show lt.length ≤ lt.length
      omega
    · show ct.length ≤ ct.length
      omega
    · show lt.length - lt.length = ct.length - ct.length
      omega
    · intro k hk
      simp at hk

/-- C1 counterexample: with `cstart = 0`, remembered lines
`["a","b","x","y"]`, current lines `["a","c","x","y"]` and both cursor
lines at 1, the loops strip the two equal trailing lines `"x","y"` and the
one equal leading line `"a"`; the code widens only the leading side,
keeping the window `[0,2)`, while the claim's both-sided widening would
keep `[0,3)` — the two results differ. -/
theorem C1_counterexample :
    cursorMovedTrim 0 [['a'], ['b'], ['x'], ['y']] [['a'], ['c'], ['x'], ['y']] 1 1 =
      ⟨0, 0, 2, 0, 2⟩ ∧
    cursorMovedTrimClaim 0 [['a'], ['b'], ['x'], ['y']] [['a'], ['c'], ['x'], ['y']] 1 1 =
      ⟨0, 0, 3, 0, 3⟩ ∧
    cursorMovedTrim 0 [['a'], ['b'], ['x'], ['y']] [['a'], ['c'], ['x'], ['y']] 1 1 ≠
      cursorMovedTrimClaim 0 [['a'], ['b'], ['x'], ['y']] [['a'], ['c'], ['x'], ['y']] 1 1 := by
  decide

/-- Witness for C1 at the concrete input of the counterexample: the first
line the code stripped from the tail is indeed equal in both texts, and the
claim's trailing bound is one more than the code's. -/
theorem C1_witness :
    List.getD [['a'], ['b'], ['x'], ['y']] 2 ([] : PyStr) =
      List.getD [['a'], ['c'], ['x'], ['y']] 2 ([] : PyStr) ∧
    (cursorMovedTrimClaim 0 [['a'], ['b'], ['x'], ['y']] [['a'], ['c'], ['x'], ['y']] 1 1).ltHi =
      min (List.length [['a'], ['b'], ['x'], ['y']])
        ((cursorMovedTrim 0 [['a'], ['b'], ['x'], ['y']] [['a'], ['c'], ['x'], ['y']] 1 1).ltHi
          + 1) := by
  have h := C1_window_widening 0 [['a'], ['b'], ['x'], ['y']] [['a'], ['c'], ['x'], ['y']] 1 1
  exact ⟨h.2.2.2.2.2 0 (by decide), h.2.1.1⟩

/-! ## Claim C6 — overwrite and ordering in `_snips` -/

/-- Helper for C6: reading a dictionary after an assignment. -/
theorem dictGet_dictSet (k : PyStr) (v : List Snippet) (tr : PyStr) :
    ∀ m : SnipDict, dictGet (dictSet m k v) tr = if k = tr then some v else dictGet m tr := by
  intro m
  induction m with
  | nil => by_cases h : k = tr <;> simp [dictGet, dictSet, h]
  | cons p rest ih =>
    obtain ⟨q, w⟩ := p
    by_cases h1 : q = k <;> by_cases h2 : q = tr <;> by_cases h3 : k = tr <;>
      simp_all [dictGet, dictSet]

/-- Helper for C6: a successful lookup exhibits a member pair. -/
theorem dictGet_mem (tr : PyStr) (l : List Snippet) :
    ∀ m : SnipDict, dictGet m tr = some l → (tr, l) ∈ m := by
  intro m
  induction m with
  | nil => intro h; simp [dictGet] at h
  | cons p rest ih =>
    obtain ⟨q, w⟩ := p
    intro h
    by_cases hk : q = tr
    · subst hk
      simp only [dictGet, if_pos rfl] at h
      injection h with h'
      subst h'
      exact List.mem_cons_self _ _
    · simp only [dictGet, if_neg hk] at h
      exact List.mem_cons_of_mem _ (ih h)

/-- Helper for C6: keys after an assignment. -/
theorem dictSet_keys (k : PyStr) (v : List Snippet) :
    ∀ m : SnipDict, (dictSet m k v).map Prod.fst =
      if k ∈ m.map Prod.fst then m.map Prod.fst else m.map Prod.fst ++ [k] := by
  intro m
  induction m with
  | nil => simp [dictSet]
  | cons p rest ih =>
    obtain ⟨q, w⟩ := p
    by_cases h1 : q = k
    · subst h1
      simp [dictSet]
    · have h1' : ¬ k = q := fun h => h1 h.symm
      simp only [dictSet, if_neg h1, List.map_cons, ih]
      by_cases h2 : k ∈ rest.map Prod.fst <;>
        simp [List.mem_cons, h1', h2]

/-- Helper for C6: assignments preserve distinctness of the keys. -/
theorem dictSet_keys_nodup (k : PyStr) (v : List Snippet) (m : SnipDict)
    (h : (m.map Prod.fst).Nodup) : ((dictSet m k v).map Prod.fst).Nodup := by
  rw [dictSet_keys]
  by_cases h2 : k ∈ m.map Prod.fst
  · simpa [h2] using h
  · simp [h2, List.nodup_append, h]

/-- Helper for C6: the dict built by `_snips` has distinct keys. -/
theorem snipsMap_keys_nodup (found : List Snippet) :
    ((snipsMap found).map Prod.fst).Nodup := by
  suffices h : ∀ m : SnipDict, (m.map Prod.fst).Nodup →
      ((found.foldl snipsStep m).map Prod.fst).Nodup by
    exact h [] (by simp)
  induction found with
  | nil => intro m hm; simpa using hm
  | cons s rest ih =>
    intro m hm
    simp only [List.foldl_cons]
    apply ih
    unfold snipsStep
    cases hget : dictGet m s.trigger with
    | none => exact dictSet_keys_nodup _ _ _ hm
    | some cur =>
      by_cases hov : s.overwrites_previous = true <;>
        simp [hov] <;> exact dictSet_keys_nodup _ _ _ hm

/-- Helper for C6: with distinct keys, every member pair is found by
lookup. -/
theorem dictGet_of_mem (p : PyStr × List Snippet) :
    ∀ m : SnipDict, (m.map Prod.fst).Nodup → p ∈ m → dictGet m p.1 = some p.2 := by
  intro m
  induction m with
  | nil => intro _ h; simp at h
  | cons q rest ih =>
    intro hnd hp
    obtain ⟨k, w⟩ := q
    rcases List.mem_cons.mp hp with heq | hmem
    · subst heq
      simp [dictGet]
    · have hk : ¬ k = p.1 := by
        intro he
        have hpm : p.1 ∈ rest.map Prod.fst := List.mem_map_of_mem Prod.fst hmem
        rw [← he] at hpm
        exact (List.nodup_cons.mp hnd).1 hpm
      simp only [dictGet, if_neg hk]
      exact ih (List.nodup_cons.mp hnd).2 hmem

/-- Helper for C6: per-trigger view of the dict being built — the bucket of
`tr` evolves by `bucketStep tr` over the processed snippets. -/
theorem snipsMap_bucket (tr : PyStr) :
    ∀ (l : List Snippet) (m : SnipDict),
      dictGet (l.foldl snipsStep m) tr = l.foldl (bucketStep tr) (dictGet m tr) := by
  intro l
  induction l with
  | nil => intro m; rfl
  | cons s rest ih =>
    intro m
    simp only [List.foldl_cons]
    rw [ih]
    have hstep : dictGet (snipsStep m s) tr = bucketStep tr (dictGet m tr) s := by
      by_cases hst : s.trigger = tr
      · subst hst
        unfold snipsStep bucketStep
        cases hget : dictGet m s.trigger with
        | none => simp [dictGet_dictSet, hget]
        | some cur =>
          by_cases hov : s.overwrites_previous = true <;> simp [hov, dictGet_dictSet, hget]
      · unfold snipsStep bucketStep
        cases hget : dictGet m s.trigger with
        | none => simp [dictGet_dictSet, hst]
        | some cur =>
          by_cases hov : s.overwrites_previous = true <;> simp [hov, dictGet_dictSet, hst]
    rw [hstep]

/-- Helper for C6: once a bucket exists, it evolves exactly like the
surviving-snippets fold. -/
theorem bucketFold_some (tr : PyStr) :
    ∀ (l : List Snippet) (cur : List Snippet),
      l.foldl (bucketStep tr) (some cur) = some (l.foldl (keptStep tr) cur) := by
  intro l
  induction l with
  | nil => intro cur; rfl
  | cons s rest ih =>
    intro cur
    simp only [List.foldl_cons]
    have hstep : bucketStep tr (some cur) s = some (keptStep tr cur s) := by
      unfold bucketStep keptStep
      by_cases hst : s.trigger = tr <;> simp [hst]
    rw [hstep, ih]

/-- Helper for C6: the bucket of `tr` after the whole loop, from an absent
key: present iff some snippet has this trigger, holding the survivors. -/
theorem bucketFold_none (tr : PyStr) :
    ∀ l : List Snippet,
      l.foldl (bucketStep tr) none =
        if ∃ x ∈ l, x.trigger = tr then some (l.foldl (keptStep tr) []) else none := by
  intro l
  induction l with
  | nil => simp
  | cons s rest ih =>
    simp only [List.foldl_cons]
    by_cases hst : s.trigger = tr
    · have h1 : bucketStep tr none s = some [s] := by simp [bucketStep, hst]
      have h2 : keptStep tr [] s = [s] := by
        by_cases hov : s.overwrites_previous = true <;> simp [keptStep, hst, hov]
      rw [h1, bucketFold_some, h2,
        if_pos ⟨s, List.mem_cons_self s rest, hst⟩]
    · have h1 : bucketStep tr none s = none := by simp [bucketStep, hst]
      have h2 : keptStep tr [] s = [] := by simp [keptStep, hst]
      rw [h1, ih, h2]
      by_cases hex : ∃ x ∈ rest, x.trigger = tr
      · rw [if_pos hex,
          if_pos (⟨hex.choose, List.mem_cons_of_mem _ hex.choose_spec.1, hex.choose_spec.2⟩ :
            ∃ x ∈ s :: rest, x.trigger = tr)]
      · rw [if_neg hex, if_neg ?_]
        rintro ⟨x, hx, hxt⟩
        rcases List.mem_cons.mp hx with rfl | hx'
        · exact hst hxt
        · exact hex ⟨x, hx', hxt⟩

/-- Helper for C6: everything in the surviving fold of `tr` has trigger
`tr`. -/
theorem keptFold_trigger (tr : PyStr) :
    ∀ (l : List Snippet) (acc : List Snippet),
      (∀ x ∈ acc, x.trigger = tr) → ∀ x ∈ l.foldl (keptStep tr) acc, x.trigger = tr := by
  intro l
  induction l with
  | nil => intro acc hacc x hx; exact hacc x hx
  | cons s rest ih =>
    intro acc hacc x hx
    simp only [List.foldl_cons] at hx
    refine ih (keptStep tr acc s) ?_ x hx
    intro y hy
    unfold keptStep at hy
    by_cases hst : s.trigger = tr
    · rw [if_pos hst] at hy
      by_cases hov : s.overwrites_previous = true
      · rw [if_pos hov] at hy
        simp at hy
        subst hy
        exact hst
      · rw [if_neg hov] at hy
        rcases List.mem_append.mp hy with h | h
        · exact hacc y h
        · simp at h
          subst h
          exact hst
    · rw [if_neg hst] at hy
      exact hacc y hy

/-- Helper for C6: splitting a decomposition of a cons cell. -/
theorem exists_decomp_cons {α : Type} (y s : α) (l : List α) (P : List α → Prop) :
    (∃ l1 l2, y :: l = l1 ++ s :: l2 ∧ P l2) ↔
      ((y = s ∧ P l) ∨ ∃ l1 l2, l = l1 ++ s :: l2 ∧ P l2) := by
  constructor
  · rintro ⟨l1, l2, heq, hp⟩
    cases l1 with
    | nil =>
      simp only [List.nil_append] at heq
      injection heq with h1 h2
      subst h2
      exact Or.inl ⟨h1, hp⟩
    | cons a l1t =>
      simp only [List.cons_append] at heq
      injection heq with h1 h2
      exact Or.inr ⟨l1t, l2, h2, hp⟩
  · rintro (⟨rfl, hp⟩ | ⟨l1, l2, heq, hp⟩)
    · exact ⟨[], l, rfl, hp⟩
    · exact ⟨y :: l1, l2, by rw [List.cons_append, heq], hp⟩

/-- Helper for C6: membership in the surviving fold — a snippet survives
iff it came from the accumulator and no later same-trigger snippet has the
`!` option, or it occurs in the list with no later same-trigger `!`
snippet after it. -/
theorem keptFold_mem (tr : PyStr) (s : Snippet) :
    ∀ (l : List Snippet) (acc : List Snippet),
      (s ∈ l.foldl (keptStep tr) acc ↔
        (s ∈ acc ∧ ∀ t ∈ l, t.trigger = tr → t.overwrites_previous = false) ∨
        (∃ l1 l2, l = l1 ++ s :: l2 ∧ s.trigger = tr ∧
          ∀ t ∈ l2, t.trigger = tr → t.overwrites_previous = false)) := by
  intro l
  induction l with
  | nil =>
    intro acc
    simp
  | cons y rest ih =>
    intro acc
    simp only [List.foldl_cons]
    rw [ih (keptStep tr acc y),
      exists_decomp_cons y s rest
        (fun l2 => s.trigger = tr ∧ ∀ t ∈ l2, t.trigger = tr → t.overwrites_previous = false)]
    have hA : (s ∈ keptStep tr acc y ∧
          ∀ t ∈ rest, t.trigger = tr → t.overwrites_previous = false) ↔
        ((s ∈ acc ∧ ∀ t ∈ y :: rest, t.trigger = tr → t.overwrites_previous = false) ∨
          (y = s ∧ s.trigger = tr ∧
            ∀ t ∈ rest, t.trigger = tr → t.overwrites_previous = false)) := by
      by_cases hyt : y.trigger = tr
      · by_cases hov : y.overwrites_previous = true
        · constructor
          · rintro ⟨hmem, hnb⟩
            simp [keptStep, hyt, hov] at hmem
            subst hmem
            exact Or.inr ⟨rfl, hyt, hnb⟩
          · rintro (⟨hmem, hnb⟩ | ⟨rfl, htr, hnb⟩)
            · have := hnb y (List.mem_cons_self _ _) hyt
              rw [hov] at this
              cases this
            · exact ⟨by simp [keptStep, hyt, hov], hnb⟩
        · constructor
          · rintro ⟨hmem, hnb⟩
            rcases (by simpa [keptStep, hyt, hov] using hmem : s ∈ acc ∨ s = y) with h | h
            · refine Or.inl ⟨h, ?_⟩
              intro t ht htr
              rcases List.mem_cons.mp ht with rfl | ht'
              · simpa using hov
              · exact hnb t ht' htr
            · subst h
              exact Or.inr ⟨rfl, hyt, hnb⟩
          · rintro (⟨hmem, hnb⟩ | ⟨rfl, htr, hnb⟩)
            · exact ⟨by simp [keptStep, hyt, hov, hmem], fun t ht htr =>
                hnb t (List.mem_cons_of_mem _ ht) htr⟩
            · exact ⟨by simp [keptStep, hyt, hov], hnb⟩
      · constructor
        · rintro ⟨hmem, hnb⟩
          rw [show keptStep tr acc y = acc from by simp [keptStep, hyt]] at hmem
          refine Or.inl ⟨hmem, ?_⟩
          intro t ht htr
          rcases List.mem_cons.mp ht with rfl | ht'
          · exact absurd htr hyt
          · exact hnb t ht' htr
        · rintro (⟨hmem, hnb⟩ | ⟨rfl, htr, hnb⟩)
          · exact ⟨by simpa [keptStep, hyt] using hmem, fun t ht htr =>
              hnb t (List.mem_cons_of_mem _ ht) htr⟩
          · exact absurd htr hyt
    rw [hA, or_assoc]

/-- C6: in `_snips`, among matching definitions sharing a trigger text, a
later-loaded definition with the `!` option discards all earlier-loaded
ones with that trigger; otherwise all are kept; and the returned list
preserves the original load order (a sublist of the found list, not an
alphabetical sort): a found snippet is returned iff no snippet occurring
after it in load order has the same trigger and the `!` option. -/
theorem C6_snips_overwrite_order (found : List Snippet) (s : Snippet) :
    (SnippetManager.snipsOf found).Sublist found ∧
    (s ∈ SnippetManager.snipsOf found ↔
      ∃ l1 l2, found = l1 ++ s :: l2 ∧
        ∀ t ∈ l2, t.trigger = s.trigger → t.overwrites_previous = false) := by
  constructor
  · exact List.filter_sublist found
  · simp only [SnippetManager.snipsOf]
    rw [List.mem_filter]
    constructor
    · rintro ⟨hmem, hsel⟩
      obtain ⟨p, hp, hc⟩ := List.any_eq_true.mp hsel
      have hsp : s ∈ p.2 := List.mem_of_elem_eq_true hc
      have hget : dictGet (snipsMap found) p.1 = some p.2 :=
        dictGet_of_mem p (snipsMap found) (snipsMap_keys_nodup found) hp
      have h2 : dictGet (snipsMap found) p.1 =
          if ∃ x ∈ found, x.trigger = p.1 then some (found.foldl (keptStep p.1) [])
          else none := by
        show dictGet (found.foldl snipsStep []) p.1 = _
        rw [snipsMap_bucket]
        exact bucketFold_none p.1 found
      rw [hget] at h2
      by_cases hex : ∃ x ∈ found, x.trigger = p.1
      · rw [if_pos hex] at h2
        injection h2 with h2e
        rw [h2e] at hsp
        have htr : s.trigger = p.1 := keptFold_trigger p.1 found [] (by simp) s hsp
        rw [← htr] at hsp
        rcases (keptFold_mem s.trigger s found []).mp hsp with ⟨habs, _⟩ | ⟨l1, l2, heq, _, hnb⟩
        · simp at habs
        · exact ⟨l1, l2, heq, hnb⟩
      · rw [if_neg hex] at h2
        cases h2
    · rintro ⟨l1, l2, heq, hnb⟩
      have hmem : s ∈ found := by
        rw [heq]
        exact List.mem_append_right _ (List.mem_cons_self _ _)
      have hkept : s ∈ found.foldl (keptStep s.trigger) [] :=
        (keptFold_mem s.trigger s found []).mpr (Or.inr ⟨l1, l2, heq, rfl, hnb⟩)
      have hget : dictGet (snipsMap found) s.trigger =
          some (found.foldl (keptStep s.trigger) []) := by
        show dictGet (found.foldl snipsStep []) s.trigger = _
        rw [snipsMap_bucket]
        show found.foldl (bucketStep s.trigger) none = _
        rw [bucketFold_none,
          if_pos (⟨s, hmem, rfl⟩ : ∃ x ∈ found, x.trigger = s.trigger)]
      have hpm : (s.trigger, found.foldl (keptStep s.trigger) []) ∈ snipsMap found :=
        dictGet_mem _ _ _ hget
      refine ⟨hmem, List.any_eq_true.mpr ?_⟩
      exact ⟨(s.trigger, found.foldl (keptStep s.trigger) []), hpm,
        List.elem_eq_true_of_mem hkept⟩

/-- Witness for C6: three same-trigger definitions where the middle one has
`!`: the first is discarded, the later ones are kept in load order. -/
theorem C6_witness :
    (SnippetManager.snipsOf
        [⟨0, ['f'], Regex.eps, []⟩, ⟨1, ['f'], Regex.eps, ['!']⟩,
          ⟨2, ['f'], Regex.eps, []⟩]).Sublist
      [⟨0, ['f'], Regex.eps, []⟩, ⟨1, ['f'], Regex.eps, ['!']⟩,
        ⟨2, ['f'], Regex.eps, []⟩] ∧
    (⟨1, ['f'], Regex.eps, ['!']⟩ : Snippet) ∈ SnippetManager.snipsOf
      [⟨0, ['f'], Regex.eps, []⟩, ⟨1, ['f'], Regex.eps, ['!']⟩,
        ⟨2, ['f'], Regex.eps, []⟩] := by
  refine ⟨(C6_snips_overwrite_order _ ⟨1, ['f'], Regex.eps, ['!']⟩).1, ?_⟩
  exact (C6_snips_overwrite_order _ ⟨1, ['f'], Regex.eps, ['!']⟩).2.mpr
    ⟨[⟨0, ['f'], Regex.eps, []⟩], [⟨2, ['f'], Regex.eps, []⟩], by decide, by decide⟩

end UltiSnips
